import Mathlib

/-!
# Verification of the `package-CRUD` value objects

Shallow embedding of the TypeScript value-object library (`src/factories/cpf.ts`,
`src/factories/email.ts`, `src/factories/full-name.ts`, plus the `EmployeeStatus`
enumeration documented in the readme).

JavaScript strings are modelled as lists of UTF-16 code units (`List Nat`); on
the Latin-1 repertoire the library validates (letters `a-zA-ZÀ-ÖØ-öø-ÿ`,
hyphen, apostrophe, digits, `@`, `.`), every character is a single code unit,
`String.prototype.length` is the list length and `charAt` is list indexing.
Case mappings (`toUpperCase` / `toLowerCase`) are modelled faithfully for all
code points up to U+00FF together with the code points those maps produce
(`Ÿ` U+0178, `Μ` U+039C, `μ` U+03BC); in particular the one-to-many mapping
`ß → "SS"` is modelled. Code points outside that repertoire are treated as
case-invariant, and theorems whose truth depends on case behaviour carry an
explicit Latin-1 hypothesis.

Fallible constructors are modelled as `Except String Str`, carrying the
message of the `Error` the TypeScript constructor throws.
-/

/-- A JavaScript string, as its list of UTF-16 code units. -/
abbrev Str := List Nat

/-- Code units of a Lean string literal (every character used in this file is in
the Basic Multilingual Plane, hence one code unit). -/
def ofStr (s : String) : Str := s.toList.map Char.toNat

/-- The JavaScript `\s` character class (which is also exactly the set of
characters removed by `String.prototype.trim`): tab, LF, VT, FF, CR, space,
NBSP, and the Unicode space separators / line terminators / BOM. -/
def isWs (c : Nat) : Bool :=
  c = 9 || c = 10 || c = 11 || c = 12 || c = 13 || c = 32 || c = 160 ||
  c = 0x1680 || (0x2000 ≤ c && c ≤ 0x200A) || c = 0x2028 || c = 0x2029 ||
  c = 0x202F || c = 0x205F || c = 0x3000 || c = 0xFEFF

/-- `String.prototype.trim`: drop leading and trailing whitespace. -/
def jsTrim (s : Str) : Str :=
  ((s.dropWhile fun c => isWs c).reverse.dropWhile fun c => isWs c).reverse

/-- Collapse adjacent spaces: `squeeze` keeps the first of every run of
`' '` (code unit 32). Used to model `replace(/\s+/g, ' ')` below. -/
def squeeze : Str → Str
  | [] => []
  | [c] => [c]
  | c :: d :: rest =>
    if c = 32 ∧ d = 32 then squeeze (d :: rest) else c :: squeeze (d :: rest)

/-- `replace(/\s+/g, ' ')`: every maximal run of whitespace becomes a single
space.  Implemented by sending each whitespace character to `' '` and then
collapsing runs of spaces, which replaces each `\s+` match by one space. -/
def collapseWs (s : Str) : Str :=
  squeeze (s.map fun c => if isWs c then 32 else c)

/-- `String.prototype.split` with a single-character separator: the list of
(possibly empty) chunks between separator occurrences.  As in JavaScript, the
result is never empty (`"".split(sep)` is `[""]`). -/
def jsSplit (sep : Nat) : Str → List Str
  | [] => [[]]
  | c :: rest =>
    match jsSplit sep rest with
    | [] => [[c]]
    | w :: ws => if c = sep then [] :: w :: ws else (c :: w) :: ws

/-- `Array.prototype.join` with a single-character separator: the chunks
interleaved with the separator (`[].join` and `[""].join` are both `""`). -/
def joinSep (sep : Nat) : List Str → Str
  | [] => []
  | [w] => w
  | w :: w2 :: ws => w ++ sep :: joinSep sep (w2 :: ws)

/-- `Array.prototype.join(' ')`. -/
def joinSp (ws : List Str) : Str := joinSep 32 ws

/-- `String.prototype.toLowerCase`, per code unit, on the repertoire described
in the module docstring: `A-Z` and the Latin-1 uppercase letters `À-Þ` (minus
`×`) shift down by 32, `Ÿ` maps to `ÿ` and `Μ` to `μ`; everything else is
fixed (in particular `ß` and `µ` are fixed points of lowercasing). -/
def jsLower (c : Nat) : Nat :=
  if 65 ≤ c ∧ c ≤ 90 then c + 32
  else if 192 ≤ c ∧ c ≤ 222 ∧ c ≠ 215 then c + 32
  else if c = 0x178 then 0xFF
  else if c = 0x39C then 0x3BC
  else c

/-- `String.prototype.toUpperCase` of a single code unit, on the same
repertoire.  The result is a string because uppercasing is one-to-many in
JavaScript: `'ß'.toUpperCase() === "SS"`.  `a-z` and the Latin-1 lowercase
letters `à-þ` (minus `÷`) shift up by 32, `ÿ` maps to `Ÿ` (U+0178) and both
micro sign `µ` (U+00B5) and `μ` (U+03BC) map to `Μ` (U+039C). -/
def jsUpper (c : Nat) : List Nat :=
  if 97 ≤ c ∧ c ≤ 122 then [c - 32]
  else if 224 ≤ c ∧ c ≤ 254 ∧ c ≠ 247 then [c - 32]
  else if c = 0xDF then [83, 83]
  else if c = 0xFF then [0x178]
  else if c = 0xB5 then [0x39C]
  else if c = 0x3BC then [0x39C]
  else [c]

/-- `String.prototype.toLowerCase` on a whole string (per-unit in this
repertoire; the context-sensitive final-sigma rule concerns U+03A3 only). -/
def lowerStr (s : Str) : Str := s.map jsLower

/-- `word.charAt(0).toUpperCase() + word.slice(1).toLowerCase()` — the default
branch of `FullName.capitalizeWord` (`full-name.ts`). -/
def capPlain : Str → Str
  | [] => []
  | c :: rest => jsUpper c ++ lowerStr rest

/-- The hyphen-free part of `FullName.capitalizeWord` (`full-name.ts`): a word
containing an apostrophe (code unit 39) is kept verbatim up to and including
its apostrophes and the segment after the final apostrophe is capitalized (the
source realises this by recursing on the substring after the first apostrophe,
keeping the prefix as is; this scan from the left computes the same string);
a word without apostrophes gets plain capitalization. -/
def capNH : Str → Str
  | [] => []
  | c :: rest =>
    if c = 39 then (if rest.isEmpty then [c] else c :: capNH rest)
    else if 39 ∈ rest then c :: capNH rest
    else capPlain (c :: rest)

/-- `FullName.capitalizeWord` (`full-name.ts`): a word containing a hyphen
(code unit 45) is split at every hyphen and each part is capitalized
(the parts are hyphen-free, so the source's recursive call reduces to the
apostrophe/plain branches, i.e. to `capNH`). -/
def capitalizeWord (w : Str) : Str :=
  if 45 ∈ w then joinSep 45 ((jsSplit 45 w).map capNH)
  else capNH w

/-- The `lowerCaseWords` list of `FullName.normalizeName`: prepositions,
articles and connectives kept lowercase when not the first word. -/
def lowerCaseWords : List Str :=
  (["de", "da", "do", "das", "dos", "e", "o", "a", "os", "as", "em", "com"]).map ofStr

/-- The per-word processing of `FullName.normalizeName`'s `words.map((word,
index) => ...)`: the first word is always capitalized; a later word equal
(lowercased) to a connector is lowercased; any other word is capitalized. -/
def procWord (i : Nat) (w : Str) : Str :=
  if i = 0 then capitalizeWord w
  else if lowerStr w ∈ lowerCaseWords then lowerStr w
  else capitalizeWord w

/-- `words.map((word, index) => ...)` with explicit index threading. -/
def procWords (i : Nat) : List Str → List Str
  | [] => []
  | w :: ws => procWord i w :: procWords (i + 1) ws

/-- `FullName.normalizeName` (`full-name.ts`): trim, collapse whitespace runs
to single spaces, split on `' '`, process each word, join with `' '`. -/
def normalizeName (s : Str) : Str :=
  joinSp (procWords 0 (jsSplit 32 (collapseWs (jsTrim s))))

/-- `name.trim().split(/\s+/)` as used by `FullName.validate`: on a trimmed
string, splitting on `/\s+/` coincides with collapsing whitespace runs to
single spaces and splitting on `' '` (both produce `[""]` for the empty
string, as JavaScript does). -/
def regexSplitWs (s : Str) : List Str := jsSplit 32 (collapseWs (jsTrim s))

/-- The `validSingleCharWords` whitelist of `FullName.validate`. -/
def validSingleCharWords : List Str := (["e", "o", "a", "à", "é"]).map ofStr

/-- The regex character class `[a-zA-ZÀ-ÖØ-öø-ÿ]` of `FullName.validate`. -/
def isNameLetter (c : Nat) : Bool :=
  (65 ≤ c && c ≤ 90) || (97 ≤ c && c ≤ 122) ||
  (192 ≤ c && c ≤ 214) || (216 ≤ c && c ≤ 246) || (248 ≤ c && c ≤ 255)

/-- `FullName.validate` (`full-name.ts`): at least two whitespace-separated
words; a length-1 word must be a whitelisted connector (case-insensitively);
every word must start with a letter and consist only of letters, hyphens and
apostrophes (the `+` in `/^[a-zA-ZÀ-ÖØ-öø-ÿ'-]+$/` requires nonemptiness). -/
def FullName.validate (name : Str) : Bool :=
  let words := regexSplitWs name
  if words.length < 2 then false
  else words.all fun w =>
    (w.length != 1 || decide (lowerStr w ∈ validSingleCharWords)) &&
    (match w with | [] => false | c :: _ => isNameLetter c) &&
    (!w.isEmpty && w.all fun c => isNameLetter c || c == 39 || c == 45)

/-- `FullName.schema.safeParse` (`full-name.ts`): zod runs the `min` and `max`
string checks first (the first failing check supplies `errors[0]`), and the
`refine` only when those passed. -/
def FullName.parse (v : Str) : Except String Str :=
  if v.length < 3 then .error "Nome completo deve ter pelo menos 3 caracteres"
  else if 100 < v.length then .error "Nome completo não pode exceder 100 caracteres"
  else if FullName.validate v then .ok v
  else .error "Nome completo inválido"

/-- The `FullName` constructor: normalize, validate, store the normalized
value or throw the first zod issue's message. -/
def FullName.new (name : Str) : Except String Str :=
  FullName.parse (normalizeName name)

/-- `FullName.isValid`: same normalization, `safeParse(...).success`.
(`normalizeName` cannot throw, so the surrounding `try` is dead code.) -/
def FullName.isValid (name : Str) : Bool :=
  (FullName.parse (normalizeName name)).isOk

/-- `FullName.getFirstName`: `value.split(' ')[0]`. -/
def FullName.getFirstName (v : Str) : Str := (jsSplit 32 v).getD 0 []

/-- `FullName.getLastName`: `parts[parts.length - 1]` of `value.split(' ')`. -/
def FullName.getLastName (v : Str) : Str := (jsSplit 32 v).getLastD []

/-- The regex class `\d` (and `Char.isDigit` of a code unit). -/
def isDigitCU (c : Nat) : Bool := 48 ≤ c && c ≤ 57

/-- The regex `/^(\d)\1{10}$/` of `CPF.validate`: eleven copies of one
digit. -/
def CPF.allSame (s : Str) : Bool :=
  match s with
  | [] => false
  | c :: rest => isDigitCU c && rest.length == 10 && rest.all fun d => d == c

/-- `CPF.validate` (`cpf.ts`): reject repeated digits, then check the two
check digits.  `digits` is `parseInt` per character (`c - 48` on the digit
strings this is invoked on: zod runs the `refine` only after the
`/^\d{11}$/` check passed). -/
def CPF.validate (s : Str) : Bool :=
  if CPF.allSame s then false
  else
    let d := s.map fun c => c - 48
    let soma1 := ((List.range 9).map fun i => d.getD i 0 * (10 - i)).sum
    let resto1 := soma1 * 10 % 11
    let resto1 := if resto1 = 10 then 0 else resto1
    if resto1 ≠ d.getD 9 0 then false
    else
      let soma2 := ((List.range 10).map fun i => d.getD i 0 * (11 - i)).sum
      let resto2 := soma2 * 10 % 11
      let resto2 := if resto2 = 10 then 0 else resto2
      resto2 == d.getD 10 0

/-- `CPF.schema.safeParse` (`cpf.ts`): the `/^\d{11}$/` regex check first
(its message supplies `errors[0]` when it fails, and the `refine` is skipped),
then the checksum refinement. -/
def CPF.parse (v : Str) : Except String Str :=
  if v.length == 11 && v.all isDigitCU then
    if CPF.validate v then .ok v else .error "CPF inválido"
  else .error "CPF deve conter exatamente 11 dígitos numéricos"

/-- The `CPF` constructor: strip non-digits (`replace(/\D/g, '')`), parse,
store the cleaned string or throw the first zod issue's message. -/
def CPF.new (cpf : Str) : Except String Str :=
  CPF.parse (cpf.filter fun c => isDigitCU c)

/-- `CPF.isValid`: same stripping, `safeParse(...).success`. -/
def CPF.isValid (cpf : Str) : Bool :=
  (CPF.parse (cpf.filter fun c => isDigitCU c)).isOk

/-- Modelled from the spec: the email-format test `z.string().email(...)` of
`email.ts` lives in the external `zod` dependency, not in this repository's
sources.  The spec describes it as a standard email address grammar:
local-part `"@"` domain, with at least one dot in the domain — so a non-empty
`@`-free local part, a single `@` (code unit 64), and an `@`-free domain
containing a dot (code unit 46). -/
def emailFormat (s : Str) : Bool :=
  match jsSplit 64 s with
  | [localPart, domain] => !localPart.isEmpty && decide (46 ∈ domain)
  | _ => false

/-- The normalization of the `Email` constructor and of `Email.isValid`:
`email.trim().toLowerCase()`. -/
def Email.norm (email : Str) : Str := lowerStr (jsTrim email)

/-- `Email.schema.safeParse` (`email.ts`): zod's string checks all run and
issues are collected in registration order, so `errors[0]` is the `email`
message when the format check fails, and otherwise the `max(255)` message. -/
def Email.parse (v : Str) : Except String Str :=
  if !emailFormat v then .error "Email inválido"
  else if 255 < v.length then .error "Email não pode exceder 255 caracteres"
  else .ok v

/-- The `Email` constructor: normalize, parse, store the normalized value or
throw the first zod issue's message. -/
def Email.new (email : Str) : Except String Str :=
  Email.parse (Email.norm email)

/-- `Email.isValid`: same normalization, `safeParse(...).success`. -/
def Email.isValid (email : Str) : Bool :=
  (Email.parse (Email.norm email)).isOk

/-- `Email.getUsername`: `value.split('@')[0]`. -/
def Email.getUsername (v : Str) : Str := (jsSplit 64 v).getD 0 []

/-- `Email.getDomain`: `value.split('@')[1]`. -/
def Email.getDomain (v : Str) : Str := (jsSplit 64 v).getD 1 []

/-- Modelled from the spec: the `EmployeeStatus` enumeration is documented in
the readme but its source file is not under `src/`.  "A closed enumeration
with fixed display labels: NORMAL→\"Normal\", VACATION→\"Férias\",
DISMISSED→\"Demitido\", TRANSFERRED→\"Transferido\", LEAVE→\"Afastado\"." -/
inductive EmployeeStatus
  | NORMAL
  | VACATION
  | DISMISSED
  | TRANSFERRED
  | LEAVE
  deriving DecidableEq

/-- Modelled from the spec: the display label of each `EmployeeStatus`
constant. -/
def EmployeeStatus.label : EmployeeStatus → String
  | .NORMAL => "Normal"
  | .VACATION => "Férias"
  | .DISMISSED => "Demitido"
  | .TRANSFERRED => "Transferido"
  | .LEAVE => "Afastado"

/-! ## Claim C2: `isValid` agrees with the constructor -/

/-- C2: for every input string and each of the three value types, the static
predicate `isValid` returns `true` exactly when the constructor does not
throw.  In the source, both paths apply the same normalization and the same
zod schema (`isValid` via `safeParse(...).success`, the constructor by
throwing when `safeParse` fails), so they agree on every input. -/
theorem isValid_agrees_with_constructor (s : Str) :
    (CPF.isValid s = true ↔ (CPF.new s).isOk = true) ∧
    (Email.isValid s = true ↔ (Email.new s).isOk = true) ∧
    (FullName.isValid s = true ↔ (FullName.new s).isOk = true) :=
  ⟨Iff.rfl, Iff.rfl, Iff.rfl⟩

/-! ## Claim C4: the `EmployeeStatus` enumeration -/

/-- C4: `EmployeeStatus` is a closed enumeration of exactly the five named
constants, with the fixed display labels NORMAL→"Normal", VACATION→"Férias",
DISMISSED→"Demitido", TRANSFERRED→"Transferido", LEAVE→"Afastado". -/
theorem employeeStatus_closed_enumeration :
    (∀ s : EmployeeStatus, s = .NORMAL ∨ s = .VACATION ∨ s = .DISMISSED ∨
      s = .TRANSFERRED ∨ s = .LEAVE) ∧
    EmployeeStatus.label .NORMAL = "Normal" ∧
    EmployeeStatus.label .VACATION = "Férias" ∧
    EmployeeStatus.label .DISMISSED = "Demitido" ∧
    EmployeeStatus.label .TRANSFERRED = "Transferido" ∧
    EmployeeStatus.label .LEAVE = "Afastado" := by
  refine ⟨fun s => ?_, rfl, rfl, rfl, rfl, rfl⟩
  cases s <;> simp

/-! ## Claim C7: when Email construction succeeds -/

/-- `Email.parse` succeeds exactly when the format check passes and the
length is within bounds. -/
theorem email_parse_isOk (v : Str) :
    (Email.parse v).isOk = true ↔ emailFormat v = true ∧ v.length ≤ 255 := by
  unfold Email.parse
  by_cases hf : emailFormat v
  · by_cases hl : 255 < v.length
    · have hn : ¬ v.length ≤ 255 := by omega
      simp [hf, hl, Except.isOk, Except.toBool, hn]
    · have hp : v.length ≤ 255 := by omega
      simp [hf, hl, Except.isOk, Except.toBool, hp]
  · simp [hf, Except.isOk, Except.toBool]

/-- C7: Email construction succeeds exactly when the trimmed, lowercased
input matches the address grammar (non-empty local part, `@`, domain with a
dot) and is at most 255 code units long after normalization. -/
theorem email_new_ok_iff (s : Str) :
    (Email.new s).isOk = true ↔
      emailFormat (Email.norm s) = true ∧ (Email.norm s).length ≤ 255 :=
  email_parse_isOk (Email.norm s)

/-! ## Claim C10: a name may end in a connector word -/

/-- C10: `"João de"` is accepted by the `FullName` constructor (its normalized
form is itself), and `getLastName()` on the stored value returns the
lowercase connector `"de"`. -/
theorem fullname_trailing_connector_accepted :
    FullName.new (ofStr "João de") = .ok (ofStr "João de") ∧
    FullName.getLastName (ofStr "João de") = ofStr "de" := by
  constructor <;> rfl

/-! ## Claim C3: the Email failure message (corrected) -/

/-- A grammatically well-formed address of 256 code units: 250 `a`s followed
by `"@bb.cc"`. -/
def longEmailInput : Str := List.replicate 250 97 ++ ofStr "@bb.cc"

set_option maxRecDepth 4000 in
/-- C3 counterexample: on an input whose normalized form matches the address
grammar but exceeds 255 characters, the constructor's error message is the
`max` check's `"Email não pode exceder 255 caracteres"`, not
`"Email inválido"` — refuting the claim that every failure carries the single
message `"Email inválido"`. -/
theorem email_error_message_counterexample :
    Email.new longEmailInput = .error "Email não pode exceder 255 caracteres" ∧
    "Email não pode exceder 255 caracteres" ≠ "Email inválido" :=
  ⟨by rfl, by decide⟩

/-- C3 amended: a failing Email construction carries the message
`"Email inválido"` exactly when the normalized input fails the address
grammar (even if it is also overlong, since zod reports the `email` issue
first); when the grammar passes but the normalized length exceeds 255, the
message is `"Email não pode exceder 255 caracteres"`. -/
theorem email_error_messages (s : Str) :
    (emailFormat (Email.norm s) = false → Email.new s = .error "Email inválido") ∧
    (emailFormat (Email.norm s) = true → 255 < (Email.norm s).length →
      Email.new s = .error "Email não pode exceder 255 caracteres") := by
  constructor
  · intro h
    simp [Email.new, Email.parse, h]
  · intro h hl
    simp [Email.new, Email.parse, h, hl]

/-- Witness for `email_error_messages` at the concrete input
`"emailinvalido"`. -/
theorem email_error_messages_witness :
    emailFormat (Email.norm (ofStr "emailinvalido")) = false ∧
    Email.new (ofStr "emailinvalido") = .error "Email inválido" :=
  ⟨by decide, (email_error_messages (ofStr "emailinvalido")).1 (by decide)⟩

/-! ## Claim C8: single-word names always fail -/

/-- C8: whenever the normalized form of the input has fewer than two
whitespace-separated components, `FullName` construction fails, regardless of
the word's length (the validation refinement returns `false`, and the only
other outcomes of the schema are the two length errors). -/
theorem fullname_single_word_throws (s : Str)
    (h : (regexSplitWs (normalizeName s)).length < 2) :
    (FullName.new s).isOk = false := by
  have hv : FullName.validate (normalizeName s) = false := by
    unfold FullName.validate
    simp only [if_pos h]
  unfold FullName.new FullName.parse
  split
  · rfl
  · split
    · rfl
    · rw [hv]
      rfl

/-- Witness for `fullname_single_word_throws` at the concrete input
`"João"`. -/
theorem fullname_single_word_throws_witness :
    (regexSplitWs (normalizeName (ofStr "João"))).length < 2 ∧
    (FullName.new (ofStr "João")).isOk = false :=
  ⟨by decide, fullname_single_word_throws (ofStr "João") (by decide)⟩

/-! ## Claim C1: the CPF checksum -/

/-- The spec's first check digit: sum digit[i]*(10-i) for i in 0..8, times 10,
mod 11, with 10 mapped to 0. -/
def specCheckDigit1 (d : List Nat) : Nat :=
  let r := ((List.range 9).map fun i => d.getD i 0 * (10 - i)).sum * 10 % 11
  if r = 10 then 0 else r

/-- The spec's second check digit: weights (11-i) for i in 0..9 over the
first ten digits, times 10, mod 11, with 10 mapped to 0. -/
def specCheckDigit2 (d : List Nat) : Nat :=
  let r := ((List.range 10).map fun i => d.getD i 0 * (11 - i)).sum * 10 % 11
  if r = 10 then 0 else r

/-- The shape of each check-digit comparison in `CPF.validate`. -/
theorem ite_check (u v p q : Nat) :
    (if u ≠ p then false else (v == q)) = true ↔ (u = p ∧ v = q) := by
  by_cases h : u = p <;> simp [h]

/-- C1: for an 11-digit string (stripping non-digits is then the identity),
CPF construction succeeds exactly when the digits are not all identical and
both check digits match the spec's weighted-sum formulas. -/
theorem cpf_new_iff_checksum (s : Str)
    (h : s.length = 11 ∧ ∀ c ∈ s, isDigitCU c = true) :
    (CPF.new s).isOk = true ↔
      ¬ (∀ c ∈ s, c = s.headD 0) ∧
      specCheckDigit1 (s.map fun c => c - 48) = (s.map fun c => c - 48).getD 9 0 ∧
      specCheckDigit2 (s.map fun c => c - 48) = (s.map fun c => c - 48).getD 10 0 := by
  obtain ⟨hlen, hdig⟩ := h
  have hfilter : s.filter (fun c => isDigitCU c) = s := List.filter_eq_self.mpr hdig
  have hall : s.all isDigitCU = true := List.all_eq_true.mpr hdig
  have hsame : CPF.allSame s = true ↔ ∀ c ∈ s, c = s.headD 0 := by
    cases s with
    | nil => simp at hlen
    | cons c rest =>
      have hc : isDigitCU c = true := hdig c (List.mem_cons_self c rest)
      have hr : rest.length = 10 := by simpa using hlen
      simp [CPF.allSame, hc, hr, List.all_eq_true, List.forall_mem_cons]
  have key : CPF.validate s = true ↔
      (¬ (∀ c ∈ s, c = s.headD 0) ∧
       specCheckDigit1 (s.map fun c => c - 48) = (s.map fun c => c - 48).getD 9 0 ∧
       specCheckDigit2 (s.map fun c => c - 48) = (s.map fun c => c - 48).getD 10 0) := by
    by_cases ha : CPF.allSame s = true
    · have hvfalse : CPF.validate s = false := by
        rw [CPF.validate, if_pos ha]
      rw [hvfalse]
      constructor
      · intro hfalse
        cases hfalse
      · rintro ⟨h1, -, -⟩
        exact absurd (hsame.mp ha) h1
    · have h1 : ¬ (∀ c ∈ s, c = s.headD 0) := fun hx => ha (hsame.mpr hx)
      rw [CPF.validate, if_neg ha]
      simp only [specCheckDigit1, specCheckDigit2]
      rw [ite_check]
      constructor
      · rintro ⟨e1, e2⟩
        exact ⟨h1, e1, e2⟩
      · rintro ⟨-, e1, e2⟩
        exact ⟨e1, e2⟩
  have hcond : (s.length == 11 && s.all isDigitCU) = true := by
    simp [hlen, hall]
  unfold CPF.new
  rw [hfilter]
  unfold CPF.parse
  rw [if_pos hcond]
  by_cases hv : CPF.validate s = true
  · rw [if_pos hv]
    exact iff_of_true rfl (key.mp hv)
  · rw [if_neg hv]
    constructor
    · intro hfalse
      cases hfalse
    · intro hr
      exact absurd (key.mpr hr) hv

/-- Witness for `cpf_new_iff_checksum` at the known-valid CPF
`"52998224725"`. -/
theorem cpf_new_iff_checksum_witness :
    ((ofStr "52998224725").length = 11 ∧
      ∀ c ∈ ofStr "52998224725", isDigitCU c = true) ∧
    (CPF.new (ofStr "52998224725")).isOk = true :=
  ⟨by decide, (cpf_new_iff_checksum (ofStr "52998224725") (by decide)).mpr (by decide)⟩

/-! ## `jsSplit` structure lemmas (for the Email accessor claims) -/

/-- `jsSplit` always returns at least one chunk. -/
theorem jsSplit_ne_nil (sep : Nat) (s : Str) : jsSplit sep s ≠ [] := by
  cases s with
  | nil => simp [jsSplit]
  | cons c rest =>
    unfold jsSplit
    cases h : jsSplit sep rest with
    | nil => simp
    | cons w ws => by_cases hc : c = sep <;> simp [hc]

/-- Chunks contain no separator, and interleaving them with the separator
reconstructs the string. -/
theorem jsSplit_join (sep : Nat) (s : Str) :
    joinSep sep (jsSplit sep s) = s ∧ ∀ p ∈ jsSplit sep s, sep ∉ p := by
  induction s with
  | nil => simp [jsSplit, joinSep]
  | cons c rest ih =>
    cases h : jsSplit sep rest with
    | nil => exact absurd h (jsSplit_ne_nil sep rest)
    | cons w ws =>
      rw [h] at ih
      obtain ⟨ih1, ih2⟩ := ih
      have hred : jsSplit sep (c :: rest) =
          if c = sep then [] :: w :: ws else (c :: w) :: ws := by
        unfold jsSplit
        rw [h]
      by_cases hc : c = sep
      · rw [hred, if_pos hc]
        subst hc
        refine ⟨?_, ?_⟩
        · show [] ++ c :: joinSep c (w :: ws) = c :: rest
          rw [ih1]
          rfl
        · intro p hp
          rcases List.mem_cons.mp hp with hpe | hpm
          · subst hpe
            exact List.not_mem_nil c
          · exact ih2 p hpm
      · rw [hred, if_neg hc]
        refine ⟨?_, ?_⟩
        · cases ws with
          | nil =>
            show c :: w = c :: rest
            rw [show w = rest from ih1]
          | cons w2 ws2 =>
            show (c :: w) ++ sep :: joinSep sep (w2 :: ws2) = c :: rest
            have : w ++ sep :: joinSep sep (w2 :: ws2) = rest := ih1
            simpa using this
        · intro p hp
          rcases List.mem_cons.mp hp with hpe | hpm
          · subst hpe
            intro hmem
            rcases List.mem_cons.mp hmem with he | hm
            · exact hc he.symm
            · exact ih2 w (List.mem_cons_self w ws) hm
          · exact ih2 p (List.mem_cons_of_mem w hpm)

/-- A two-chunk split exhibits the string as `local ++ sep :: domain` with
separator-free parts. -/
theorem jsSplit_eq_two (sep : Nat) (s a b : Str) (h : jsSplit sep s = [a, b]) :
    s = a ++ sep :: b ∧ sep ∉ a ∧ sep ∉ b := by
  obtain ⟨h1, h2⟩ := jsSplit_join sep s
  rw [h] at h1 h2
  refine ⟨?_, h2 a (by simp), h2 b (by simp)⟩
  rw [← h1]
  rfl

/-- `Email.parse` succeeds only with the parsed string itself, and only when
the format test passed. -/
theorem email_parse_ok (u v : Str) (h : Email.parse u = .ok v) :
    v = u ∧ emailFormat u = true := by
  unfold Email.parse at h
  by_cases hf : emailFormat u
  · refine ⟨?_, hf⟩
    rw [if_neg (by simp [hf])] at h
    by_cases hl : 255 < u.length
    · rw [if_pos hl] at h
      cases h
    · rw [if_neg hl] at h
      cases h
      rfl
  · rw [if_pos (by simp [hf])] at h
    cases h

/-- The two-chunk structure behind a passing `emailFormat`. -/
theorem emailFormat_structure (v : Str) (h : emailFormat v = true) :
    ∃ l d, jsSplit 64 v = [l, d] ∧ l ≠ [] ∧ 46 ∈ d := by
  unfold emailFormat at h
  cases hs : jsSplit 64 v with
  | nil => rw [hs] at h; cases h
  | cons a t =>
    cases t with
    | nil => rw [hs] at h; cases h
    | cons b t2 =>
      cases t2 with
      | nil =>
        rw [hs] at h
        simp at h
        exact ⟨a, b, rfl, by simpa [List.isEmpty_iff] using h.1, h.2⟩
      | cons c t3 => rw [hs] at h; cases h

/-! ## Claims C6 and C9: the Email accessors -/

/-- `takeWhile (≠ sep)` recovers the separator-free prefix. -/
theorem takeWhile_append_sep (sep : Nat) (a b : Str) (hna : sep ∉ a) :
    (a ++ sep :: b).takeWhile (fun c => c != sep) = a := by
  induction a with
  | nil => simp
  | cons x xs ih =>
    have hx : x ≠ sep := fun he => hna (he ▸ List.mem_cons_self x xs)
    simp only [List.cons_append, List.takeWhile_cons]
    rw [if_pos (by simpa using hx)]
    rw [ih fun hm => hna (List.mem_cons_of_mem x hm)]

/-- `dropWhile (≠ sep)` drops exactly the separator-free prefix. -/
theorem dropWhile_append_sep (sep : Nat) (a b : Str) (hna : sep ∉ a) :
    (a ++ sep :: b).dropWhile (fun c => c != sep) = sep :: b := by
  induction a with
  | nil => simp
  | cons x xs ih =>
    have hx : x ≠ sep := fun he => hna (he ▸ List.mem_cons_self x xs)
    simp only [List.cons_append, List.dropWhile_cons]
    rw [if_pos (by simpa using hx)]
    exact ih fun hm => hna (List.mem_cons_of_mem x hm)

/-- C6: for every successfully constructed Email, `getUsername()` is the part
of the stored value strictly before the first `@` (code unit 64),
`getDomain()` the part strictly after it, and
`getUsername() ++ "@" ++ getDomain()` reassembles the stored value. -/
theorem email_username_domain (s v : Str) (h : Email.new s = .ok v) :
    Email.getUsername v = v.takeWhile (fun c => c != 64) ∧
    Email.getDomain v = (v.dropWhile (fun c => c != 64)).tail ∧
    Email.getUsername v ++ 64 :: Email.getDomain v = v := by
  have h' : Email.parse (Email.norm s) = .ok v := h
  obtain ⟨hv, hf⟩ := email_parse_ok (Email.norm s) v h'
  obtain ⟨l, d, hs, hl, hd⟩ := emailFormat_structure v (hv ▸ hf)
  obtain ⟨hjoin, hnl, hnd⟩ := jsSplit_eq_two 64 v l d hs
  have hu : Email.getUsername v = l := by
    unfold Email.getUsername
    rw [hs]
    rfl
  have hdo : Email.getDomain v = d := by
    unfold Email.getDomain
    rw [hs]
    rfl
  refine ⟨?_, ?_, ?_⟩
  · rw [hu]
    conv_rhs => rw [hjoin]
    exact (takeWhile_append_sep 64 l d hnl).symm
  · rw [hdo]
    conv_rhs => rw [hjoin]
    rw [dropWhile_append_sep 64 l d hnl]
    rfl
  · rw [hu, hdo, ← hjoin]

/-- Witness for `email_username_domain` at the concrete input
`"ab@cd.ef"`. -/
theorem email_username_domain_witness :
    Email.new (ofStr "ab@cd.ef") = .ok (ofStr "ab@cd.ef") ∧
    Email.getUsername (ofStr "ab@cd.ef") =
      (ofStr "ab@cd.ef").takeWhile (fun c => c != 64) :=
  ⟨by rfl, (email_username_domain (ofStr "ab@cd.ef") (ofStr "ab@cd.ef") (by rfl)).1⟩

/-- C9: the stored value of every successfully constructed Email contains
exactly one `@`; hence username and domain are non-empty and `@`-free. -/
theorem email_at_sign_unique (s v : Str) (h : Email.new s = .ok v) :
    v.count 64 = 1 ∧ Email.getUsername v ≠ [] ∧ Email.getDomain v ≠ [] ∧
    64 ∉ Email.getUsername v ∧ 64 ∉ Email.getDomain v := by
  have h' : Email.parse (Email.norm s) = .ok v := h
  obtain ⟨hv, hf⟩ := email_parse_ok (Email.norm s) v h'
  obtain ⟨l, d, hs, hl, hd⟩ := emailFormat_structure v (hv ▸ hf)
  obtain ⟨hjoin, hnl, hnd⟩ := jsSplit_eq_two 64 v l d hs
  have hu : Email.getUsername v = l := by
    unfold Email.getUsername
    rw [hs]
    rfl
  have hdo : Email.getDomain v = d := by
    unfold Email.getDomain
    rw [hs]
    rfl
  refine ⟨?_, ?_, ?_, ?_, ?_⟩
  · rw [hjoin, List.count_append]
    rw [List.count_eq_zero.mpr hnl]
    rw [List.count_cons_self, List.count_eq_zero.mpr hnd]
  · rw [hu]
    exact hl
  · rw [hdo]
    exact List.ne_nil_of_mem hd
  · rw [hu]
    exact hnl
  · rw [hdo]
    exact hnd

/-- Witness for `email_at_sign_unique` at the concrete input `"ab@cd.ef"`. -/
theorem email_at_sign_unique_witness :
    Email.new (ofStr "ab@cd.ef") = .ok (ofStr "ab@cd.ef") ∧
    (ofStr "ab@cd.ef").count 64 = 1 :=
  ⟨by rfl, (email_at_sign_unique (ofStr "ab@cd.ef") (ofStr "ab@cd.ef") (by rfl)).1⟩

/-! ## Claim C5: idempotence of name normalization

Character-scope: the input is restricted to Latin-1 (`c < 1024` is used as the
working bound because the case maps send Latin-1 into `{0..255, 0x178, 0x39C,
0x3BC}`), excluding `ß` (223), whose one-to-many uppercase mapping `SS`
genuinely breaks idempotence (see the counterexample). -/

set_option maxRecDepth 40000

theorem jsLower_idem_lt : ∀ c < 1024, jsLower (jsLower c) = jsLower c := by decide

theorem jsLower_good : ∀ c < 1024, c ≠ 223 → jsLower c < 1024 ∧ jsLower c ≠ 223 := by decide

theorem jsUpper_good : ∀ c < 1024, c ≠ 223 → ∀ u ∈ jsUpper c, u < 1024 ∧ u ≠ 223 := by decide

theorem jsUpper_single : ∀ c < 1024, c ≠ 223 → (jsUpper c).length = 1 := by decide

theorem jsUpper_flat : ∀ c < 1024, c ≠ 223 → (jsUpper c).flatMap jsUpper = jsUpper c := by decide

theorem jsUpper_lower :
    ∀ c < 1024, c ≠ 223 →
      ((jsUpper c).map jsLower = [jsLower c] ∨ (jsUpper c).map jsLower = [956]) := by decide

theorem case_nonWs :
    ∀ c < 1024, c ≠ 223 → isWs c = false →
      isWs (jsLower c) = false ∧ ∀ u ∈ jsUpper c, isWs u = false := by decide

theorem case_apos : ∀ c < 1024, (jsLower c = 39 → c = 39) ∧ (39 ∈ jsUpper c → c = 39) := by
  decide

theorem case_hyph : ∀ c < 1024, (jsLower c = 45 → c = 45) ∧ (45 ∈ jsUpper c → c = 45) := by
  decide

theorem lowList_no_hyphen : ∀ v ∈ lowerCaseWords, 45 ∉ v := by decide

theorem lowList_no_apos : ∀ v ∈ lowerCaseWords, 39 ∉ v := by decide

theorem lowList_head : ∀ v ∈ lowerCaseWords, v.headD 0 ≠ 956 := by decide

/-- The character scope of the idempotence argument: Latin-1 (via the 1024
bound) without `ß`. -/
def GoodW (w : Str) : Prop := ∀ c ∈ w, c < 1024 ∧ c ≠ 223

theorem goodW_of_sub {w u : Str} (h : GoodW u) (hsub : ∀ c ∈ w, c ∈ u) : GoodW w :=
  fun c hc => h c (hsub c hc)

theorem jsUpper_ne_nil (c : Nat) : jsUpper c ≠ [] := by
  unfold jsUpper
  repeat' split
  all_goals simp

theorem lowerStr_idem {w : Str} (hw : GoodW w) : lowerStr (lowerStr w) = lowerStr w := by
  unfold lowerStr
  rw [List.map_map]
  apply List.map_congr_left
  intro c hc
  exact jsLower_idem_lt c (hw c hc).1

theorem goodW_lowerStr {w : Str} (hw : GoodW w) : GoodW (lowerStr w) := by
  intro c hc
  obtain ⟨x, hx, hxe⟩ := List.mem_map.mp hc
  exact hxe ▸ jsLower_good x (hw x hx).1 (hw x hx).2

theorem capPlain_idem {w : Str} (hw : GoodW w) : capPlain (capPlain w) = capPlain w := by
  cases w with
  | nil => rfl
  | cons c rest =>
    obtain ⟨hc1, hc2⟩ := hw c (List.mem_cons_self c rest)
    have hrest : GoodW rest := fun x hx => hw x (List.mem_cons_of_mem c hx)
    obtain ⟨u, hu⟩ : ∃ u, jsUpper c = [u] := by
      have := jsUpper_single c hc1 hc2
      cases h : jsUpper c with
      | nil => exact absurd (h ▸ this) (by simp)
      | cons a t =>
        cases t with
        | nil => exact ⟨a, rfl⟩
        | cons b t2 => rw [h] at this; simp at this
    have hflat := jsUpper_flat c hc1 hc2
    rw [hu] at hflat
    simp only [List.flatMap_cons, List.flatMap_nil, List.append_nil] at hflat
    show capPlain (jsUpper c ++ lowerStr rest) = _
    rw [hu]
    show jsUpper u ++ lowerStr (lowerStr rest) = capPlain (c :: rest)
    rw [hflat, ← hu, lowerStr_idem hrest]
    rfl

theorem goodW_capPlain {w : Str} (hw : GoodW w) : GoodW (capPlain w) := by
  cases w with
  | nil => exact hw
  | cons c rest =>
    intro x hx
    rcases List.mem_append.mp hx with hx1 | hx2
    · exact jsUpper_good c (hw c (List.mem_cons_self c rest)).1
        (hw c (List.mem_cons_self c rest)).2 x hx1
    · exact goodW_lowerStr (fun y hy => hw y (List.mem_cons_of_mem c hy)) x hx2

theorem capNH_ne_nil {w : Str} (hne : w ≠ []) : capNH w ≠ [] := by
  cases w with
  | nil => exact absurd rfl hne
  | cons c rest =>
    unfold capNH
    by_cases hc : c = 39
    · rw [if_pos hc]
      by_cases hr : rest.isEmpty
      · rw [if_pos hr]; simp
      · rw [if_neg hr]; simp
    · rw [if_neg hc]
      by_cases hm : 39 ∈ rest
      · rw [if_pos hm]; simp
      · rw [if_neg hm]
        show capPlain (c :: rest) ≠ []
        show jsUpper c ++ lowerStr rest ≠ []
        simp [jsUpper_ne_nil c]

theorem capNH_of_not_mem {w : Str} (h : 39 ∉ w) : capNH w = capPlain w := by
  cases w with
  | nil => rfl
  | cons c rest =>
    unfold capNH
    have hc : ¬ c = 39 := fun he => h (he ▸ List.mem_cons_self c rest)
    have hm : 39 ∉ rest := fun hm => h (List.mem_cons_of_mem c hm)
    rw [if_neg hc, if_neg hm]

theorem mem39_capNH {w : Str} (h : 39 ∈ w) : 39 ∈ capNH w := by
  induction w with
  | nil => cases h
  | cons c rest ih =>
    unfold capNH
    by_cases hc : c = 39
    · rw [if_pos hc]
      by_cases hr : rest.isEmpty
      · rw [if_pos hr]; exact hc ▸ List.mem_cons_self c []
      · rw [if_neg hr]; exact hc ▸ List.mem_cons_self c _
    · have hm : 39 ∈ rest := by
        rcases List.mem_cons.mp h with he | hm
        · exact absurd he.symm hc
        · exact hm
      rw [if_neg hc, if_pos hm]
      exact List.mem_cons_of_mem c (ih hm)

theorem notmem39_capPlain {w : Str} (hw : GoodW w) (h : 39 ∉ w) : 39 ∉ capPlain w := by
  cases w with
  | nil => exact h
  | cons c rest =>
    intro hx
    rcases List.mem_append.mp hx with hx1 | hx2
    · have : c = 39 := (case_apos c (hw c (List.mem_cons_self c rest)).1).2 hx1
      exact h (this ▸ List.mem_cons_self c rest)
    · obtain ⟨x, hxm, hxe⟩ := List.mem_map.mp hx2
      have : x = 39 := (case_apos x (hw x (List.mem_cons_of_mem c hxm)).1).1 hxe
      exact h (List.mem_cons_of_mem c (this ▸ hxm))

theorem notmem45_capPlain {w : Str} (hw : GoodW w) (h : 45 ∉ w) : 45 ∉ capPlain w := by
  cases w with
  | nil => exact h
  | cons c rest =>
    intro hx
    rcases List.mem_append.mp hx with hx1 | hx2
    · have : c = 45 := (case_hyph c (hw c (List.mem_cons_self c rest)).1).2 hx1
      exact h (this ▸ List.mem_cons_self c rest)
    · obtain ⟨x, hxm, hxe⟩ := List.mem_map.mp hx2
      have : x = 45 := (case_hyph x (hw x (List.mem_cons_of_mem c hxm)).1).1 hxe
      exact h (List.mem_cons_of_mem c (this ▸ hxm))

theorem notmem45_capNH {w : Str} (hw : GoodW w) (h : 45 ∉ w) : 45 ∉ capNH w := by
  induction w with
  | nil => exact h
  | cons c rest ih =>
    have hc45 : ¬ c = 45 := fun he => h (he ▸ List.mem_cons_self c rest)
    have hr45 : 45 ∉ rest := fun hm => h (List.mem_cons_of_mem c hm)
    have hrg : GoodW rest := fun x hx => hw x (List.mem_cons_of_mem c hx)
    unfold capNH
    by_cases hc : c = 39
    · rw [if_pos hc]
      by_cases hr : rest.isEmpty
      · rw [if_pos hr]
        intro hx
        rcases List.mem_cons.mp hx with he | hm
        · exact hc45 he.symm
        · simp at hm
      · rw [if_neg hr]
        intro hx
        rcases List.mem_cons.mp hx with he | hm
        · exact hc45 he.symm
        · exact ih hrg hr45 hm
    · rw [if_neg hc]
      by_cases hm : 39 ∈ rest
      · rw [if_pos hm]
        intro hx
        rcases List.mem_cons.mp hx with he | hmm
        · exact hc45 he.symm
        · exact ih hrg hr45 hmm
      · rw [if_neg hm]
        exact notmem45_capPlain hw h

theorem goodW_capNH {w : Str} (hw : GoodW w) : GoodW (capNH w) := by
  induction w with
  | nil => exact hw
  | cons c rest ih =>
    have hcg := hw c (List.mem_cons_self c rest)
    have hrg : GoodW rest := fun x hx => hw x (List.mem_cons_of_mem c hx)
    unfold capNH
    by_cases hc : c = 39
    · rw [if_pos hc]
      by_cases hr : rest.isEmpty
      · rw [if_pos hr]
        intro x hx
        rcases List.mem_cons.mp hx with he | hm
        · exact he ▸ hcg
        · cases hm
      · rw [if_neg hr]
        intro x hx
        rcases List.mem_cons.mp hx with he | hm
        · exact he ▸ hcg
        · exact ih hrg x hm
    · rw [if_neg hc]
      by_cases hm : 39 ∈ rest
      · rw [if_pos hm]
        intro x hx
        rcases List.mem_cons.mp hx with he | hmm
        · exact he ▸ hcg
        · exact ih hrg x hmm
      · rw [if_neg hm]
        exact goodW_capPlain hw

theorem capNH_idem {w : Str} (hw : GoodW w) : capNH (capNH w) = capNH w := by
  induction w with
  | nil => rfl
  | cons c rest ih =>
    have hrg : GoodW rest := fun x hx => hw x (List.mem_cons_of_mem c hx)
    by_cases hc : c = 39
    · by_cases hr : rest.isEmpty
      · have h1 : capNH (c :: rest) = [c] := by
          unfold capNH
          rw [if_pos hc, if_pos hr]
        rw [h1]
        unfold capNH
        rw [if_pos hc]
        rfl
      · have hrne : rest ≠ [] := by simpa [List.isEmpty_iff] using hr
        have h1 : capNH (c :: rest) = c :: capNH rest := by
          conv_lhs => unfold capNH
          rw [if_pos hc, if_neg hr]
        rw [h1]
        have h2 : capNH (c :: capNH rest) = c :: capNH (capNH rest) := by
          conv_lhs => unfold capNH
          rw [if_pos hc,
            if_neg (by simpa [List.isEmpty_iff] using capNH_ne_nil hrne)]
        rw [h2, ih hrg]
    · by_cases hm : 39 ∈ rest
      · have h1 : capNH (c :: rest) = c :: capNH rest := by
          conv_lhs => unfold capNH
          rw [if_neg hc, if_pos hm]
        rw [h1]
        have h2 : capNH (c :: capNH rest) = c :: capNH (capNH rest) := by
          conv_lhs => unfold capNH
          rw [if_neg hc, if_pos (mem39_capNH hm)]
        rw [h2, ih hrg]
      · have hnm : 39 ∉ c :: rest := by
          intro hx
          rcases List.mem_cons.mp hx with he | hmm
          · exact hc he.symm
          · exact hm hmm
        rw [capNH_of_not_mem hnm,
          capNH_of_not_mem (notmem39_capPlain hw hnm), capPlain_idem hw]

theorem mem_joinSep_of_mem {sep : Nat} {ps : List Str} {p : Str} {c : Nat}
    (hp : p ∈ ps) (hc : c ∈ p) : c ∈ joinSep sep ps := by
  induction ps with
  | nil => cases hp
  | cons q rest ih =>
    cases rest with
    | nil =>
      rcases List.mem_cons.mp hp with he | hm
      · show c ∈ q
        exact he ▸ hc
      · cases hm
    | cons q2 rest2 =>
      show c ∈ q ++ sep :: joinSep sep (q2 :: rest2)
      rcases List.mem_cons.mp hp with he | hm
      · exact List.mem_append.mpr (Or.inl (he ▸ hc))
      · exact List.mem_append.mpr (Or.inr (List.mem_cons_of_mem sep (ih hm)))

theorem mem_joinSep_cases {sep : Nat} {ps : List Str} {c : Nat}
    (h : c ∈ joinSep sep ps) : c = sep ∨ ∃ p ∈ ps, c ∈ p := by
  induction ps with
  | nil => cases h
  | cons q rest ih =>
    cases rest with
    | nil => exact Or.inr ⟨q, List.mem_cons_self q [], h⟩
    | cons q2 rest2 =>
      rw [show joinSep sep (q :: q2 :: rest2) = q ++ sep :: joinSep sep (q2 :: rest2)
        from rfl] at h
      rcases List.mem_append.mp h with h1 | h2
      · exact Or.inr ⟨q, List.mem_cons_self q _, h1⟩
      · rcases List.mem_cons.mp h2 with he | hm
        · exact Or.inl he
        · rcases ih hm with he | ⟨p, hp, hcp⟩
          · exact Or.inl he
          · exact Or.inr ⟨p, List.mem_cons_of_mem q hp, hcp⟩

theorem mem_of_mem_jsSplit {sep : Nat} {s p : Str} {c : Nat}
    (hp : p ∈ jsSplit sep s) (hc : c ∈ p) : c ∈ s := by
  obtain ⟨hj, -⟩ := jsSplit_join sep s
  exact hj ▸ mem_joinSep_of_mem hp hc

theorem jsSplit_of_not_mem {sep : Nat} {s : Str} (h : sep ∉ s) : jsSplit sep s = [s] := by
  induction s with
  | nil => rfl
  | cons c rest ih =>
    have hc : ¬ c = sep := fun he => h (he ▸ List.mem_cons_self c rest)
    have hr := ih fun hm => h (List.mem_cons_of_mem c hm)
    have hred : jsSplit sep (c :: rest) =
        if c = sep then [[], rest] else [c :: rest] := by
      unfold jsSplit
      rw [hr]
    rw [hred, if_neg hc]

theorem jsSplit_append_sep {sep : Nat} {a t : Str} (h : sep ∉ a) :
    jsSplit sep (a ++ sep :: t) = a :: jsSplit sep t := by
  induction a with
  | nil =>
    cases hjs : jsSplit sep t with
    | nil => exact absurd hjs (jsSplit_ne_nil sep t)
    | cons w ws =>
      have hred : jsSplit sep (sep :: t) =
          if sep = sep then [] :: w :: ws else (sep :: w) :: ws := by
        unfold jsSplit
        rw [hjs]
      show jsSplit sep (sep :: t) = [] :: w :: ws
      rw [hred, if_pos rfl]
  | cons x xs ih =>
    have hx : ¬ x = sep := fun he => h (he ▸ List.mem_cons_self x xs)
    cases hjs : jsSplit sep (xs ++ sep :: t) with
    | nil => exact absurd hjs (jsSplit_ne_nil sep _)
    | cons w ws =>
      have hih := ih fun hm => h (List.mem_cons_of_mem x hm)
      have hred : jsSplit sep (x :: (xs ++ sep :: t)) =
          if x = sep then [] :: w :: ws else (x :: w) :: ws := by
        unfold jsSplit
        rw [hjs]
      show jsSplit sep (x :: (xs ++ sep :: t)) = (x :: xs) :: jsSplit sep t
      rw [hred, if_neg hx]
      have hinj : w :: ws = xs :: jsSplit sep t := hjs.symm.trans hih
      injection hinj with e1 e2
      rw [e1, e2]

theorem jsSplit_joinSep {sep : Nat} {ps : List Str} (hne : ps ≠ [])
    (h : ∀ p ∈ ps, sep ∉ p) : jsSplit sep (joinSep sep ps) = ps := by
  induction ps with
  | nil => exact absurd rfl hne
  | cons p rest ih =>
    cases rest with
    | nil =>
      show jsSplit sep p = [p]
      exact jsSplit_of_not_mem (h p (List.mem_cons_self p []))
    | cons p2 rest2 =>
      show jsSplit sep (p ++ sep :: joinSep sep (p2 :: rest2)) = p :: p2 :: rest2
      rw [jsSplit_append_sep (h p (List.mem_cons_self p _))]
      rw [ih (List.cons_ne_nil p2 rest2) fun q hq => h q (List.mem_cons_of_mem p hq)]

theorem sep_mem_joinSep {sep : Nat} {ps : List Str} (h : 2 ≤ ps.length) :
    sep ∈ joinSep sep ps := by
  cases ps with
  | nil => simp at h
  | cons p rest =>
    cases rest with
    | nil => simp at h
    | cons p2 rest2 =>
      show sep ∈ p ++ sep :: joinSep sep (p2 :: rest2)
      exact List.mem_append.mpr (Or.inr (List.mem_cons_self sep _))

theorem two_le_jsSplit_of_mem {sep : Nat} {w : Str} (h : sep ∈ w) :
    2 ≤ (jsSplit sep w).length := by
  obtain ⟨hj, hfree⟩ := jsSplit_join sep w
  cases hps : jsSplit sep w with
  | nil => exact absurd hps (jsSplit_ne_nil sep w)
  | cons a t =>
    cases t with
    | nil =>
      rw [hps] at hj hfree
      have : joinSep sep [a] = a := rfl
      rw [this] at hj
      exact absurd (hj ▸ h) (hfree a (List.mem_cons_self a []))
    | cons b t2 => simp

theorem capitalizeWord_eq (w : Str) :
    capitalizeWord w =
      if 45 ∈ w then joinSep 45 ((jsSplit 45 w).map capNH) else capNH w := rfl

theorem goodW_capitalizeWord {w : Str} (hw : GoodW w) : GoodW (capitalizeWord w) := by
  by_cases hm : 45 ∈ w
  · have h1 : capitalizeWord w = joinSep 45 ((jsSplit 45 w).map capNH) := by
      unfold capitalizeWord
      rw [if_pos hm]
    rw [h1]
    intro c hc
    rcases mem_joinSep_cases hc with he | ⟨q, hq, hcq⟩
    · exact he ▸ (by decide)
    · obtain ⟨p, hp, rfl⟩ := List.mem_map.mp hq
      exact goodW_capNH
        (goodW_of_sub hw fun x hx => mem_of_mem_jsSplit hp hx) c hcq
  · have h1 : capitalizeWord w = capNH w := by
      unfold capitalizeWord
      rw [if_neg hm]
    rw [h1]
    exact goodW_capNH hw

theorem capitalizeWord_idem {w : Str} (hw : GoodW w) :
    capitalizeWord (capitalizeWord w) = capitalizeWord w := by
  by_cases hm : 45 ∈ w
  · have h1 : capitalizeWord w = joinSep 45 ((jsSplit 45 w).map capNH) := by
      unfold capitalizeWord
      rw [if_pos hm]
    have hparts : ∀ p ∈ jsSplit 45 w, 45 ∉ p := (jsSplit_join 45 w).2
    have hpartsg : ∀ p ∈ jsSplit 45 w, GoodW p :=
      fun p hp => goodW_of_sub hw fun c hc => mem_of_mem_jsSplit hp hc
    have hqfree : ∀ q ∈ (jsSplit 45 w).map capNH, 45 ∉ q := by
      intro q hq
      obtain ⟨p, hp, rfl⟩ := List.mem_map.mp hq
      exact notmem45_capNH (hpartsg p hp) (hparts p hp)
    have hlen : 2 ≤ ((jsSplit 45 w).map capNH).length := by
      rw [List.length_map]
      exact two_le_jsSplit_of_mem hm
    have h45new : 45 ∈ capitalizeWord w := by
      rw [h1]
      exact sep_mem_joinSep hlen
    have h2 : capitalizeWord (capitalizeWord w) =
        joinSep 45 ((jsSplit 45 (capitalizeWord w)).map capNH) := by
      rw [capitalizeWord_eq (capitalizeWord w), if_pos h45new]
    rw [h2]
    conv_lhs => rw [h1]
    rw [jsSplit_joinSep (by simp [jsSplit_ne_nil 45 w]) hqfree]
    conv_rhs => rw [h1]
    rw [List.map_map]
    congr 1
    apply List.map_congr_left
    intro p hp
    exact capNH_idem (hpartsg p hp)
  · have h1 : capitalizeWord w = capNH w := by
      unfold capitalizeWord
      rw [if_neg hm]
    have h45 : 45 ∉ capNH w := notmem45_capNH hw hm
    have h2 : capitalizeWord (capNH w) = capNH (capNH w) := by
      rw [capitalizeWord_eq (capNH w), if_neg h45]
    rw [h1, h2, capNH_idem hw]

theorem lower_cap_not_connector {w : Str} (hw : GoodW w)
    (h : lowerStr w ∉ lowerCaseWords) :
    lowerStr (capitalizeWord w) ∉ lowerCaseWords := by
  by_cases hm : 45 ∈ w
  · have h1 : capitalizeWord w = joinSep 45 ((jsSplit 45 w).map capNH) := by
      unfold capitalizeWord
      rw [if_pos hm]
    have hlen : 2 ≤ ((jsSplit 45 w).map capNH).length := by
      rw [List.length_map]
      exact two_le_jsSplit_of_mem hm
    have h45 : 45 ∈ capitalizeWord w := h1 ▸ sep_mem_joinSep hlen
    have hmem45 : 45 ∈ lowerStr (capitalizeWord w) :=
      List.mem_map.mpr ⟨45, h45, by decide⟩
    intro hmem
    exact lowList_no_hyphen _ hmem hmem45
  · have h1 : capitalizeWord w = capNH w := by
      unfold capitalizeWord
      rw [if_neg hm]
    by_cases ha : 39 ∈ w
    · have h39 : 39 ∈ capitalizeWord w := h1 ▸ mem39_capNH ha
      have hmem39 : 39 ∈ lowerStr (capitalizeWord w) :=
        List.mem_map.mpr ⟨39, h39, by decide⟩
      intro hmem
      exact lowList_no_apos _ hmem hmem39
    · have h2 : capitalizeWord w = capPlain w := by
        rw [h1]
        exact capNH_of_not_mem ha
      rw [h2]
      cases w with
      | nil =>
        intro hmem
        exact (by decide : ([] : Str) ∉ lowerCaseWords) hmem
      | cons c rest =>
        have hgc := hw c (List.mem_cons_self c rest)
        have hrest : GoodW rest := fun x hx => hw x (List.mem_cons_of_mem c hx)
        have heq : lowerStr (capPlain (c :: rest)) =
            (jsUpper c).map jsLower ++ lowerStr (lowerStr rest) := by
          show lowerStr (jsUpper c ++ lowerStr rest) = _
          unfold lowerStr
          rw [List.map_append]
        rw [heq, lowerStr_idem hrest]
        rcases jsUpper_lower c hgc.1 hgc.2 with hcase | hcase
        · rw [hcase]
          rw [show [jsLower c] ++ lowerStr rest = lowerStr (c :: rest) from rfl]
          exact h
        · rw [hcase]
          intro hmem
          exact lowList_head _ hmem rfl

theorem procWord_idem {i : Nat} {w : Str} (hw : GoodW w) :
    procWord i (procWord i w) = procWord i w := by
  by_cases hi : i = 0
  · subst hi
    show capitalizeWord (capitalizeWord w) = capitalizeWord w
    exact capitalizeWord_idem hw
  · have e : ∀ v, procWord i v =
        if lowerStr v ∈ lowerCaseWords then lowerStr v else capitalizeWord v := by
      intro v
      unfold procWord
      rw [if_neg hi]
    rw [e, e]
    by_cases hmem : lowerStr w ∈ lowerCaseWords
    · rw [if_pos hmem]
      rw [if_pos (by rw [lowerStr_idem hw]; exact hmem)]
      exact lowerStr_idem hw
    · rw [if_neg hmem]
      rw [if_neg (lower_cap_not_connector hw hmem)]
      exact capitalizeWord_idem hw

theorem procWords_idem {ws : List Str} (hws : ∀ w ∈ ws, GoodW w) (i : Nat) :
    procWords i (procWords i ws) = procWords i ws := by
  induction ws generalizing i with
  | nil => rfl
  | cons w rest ih =>
    show procWord i (procWord i w) :: procWords (i + 1) (procWords (i + 1) rest) =
      procWord i w :: procWords (i + 1) rest
    rw [procWord_idem (hws w (List.mem_cons_self w rest)),
      ih (fun q hq => hws q (List.mem_cons_of_mem w hq)) (i + 1)]

/-- Adjacent spaces are forbidden by this relation. -/
def NoSp (a b : Nat) : Prop := ¬ (a = 32 ∧ b = 32)

theorem squeeze_head? (u : Str) : (squeeze u).head? = u.head? := by
  match u with
  | [] => rfl
  | [c] => rfl
  | c :: d :: rest =>
    by_cases h : c = 32 ∧ d = 32
    · have : squeeze (c :: d :: rest) = squeeze (d :: rest) := by
        simp only [squeeze]
        rw [if_pos h]
      rw [this, squeeze_head? (d :: rest)]
      show some d = some c
      rw [h.1, h.2]
    · have : squeeze (c :: d :: rest) = c :: squeeze (d :: rest) := by
        simp only [squeeze]
        rw [if_neg h]
      rw [this]
      rfl

theorem squeeze_getLast? (u : Str) : (squeeze u).getLast? = u.getLast? := by
  match u with
  | [] => rfl
  | [c] => rfl
  | c :: d :: rest =>
    by_cases h : c = 32 ∧ d = 32
    · have he : squeeze (c :: d :: rest) = squeeze (d :: rest) := by
        simp only [squeeze]
        rw [if_pos h]
      rw [he, squeeze_getLast? (d :: rest), List.getLast?_cons_cons]
    · have he : squeeze (c :: d :: rest) = c :: squeeze (d :: rest) := by
        simp only [squeeze]
        rw [if_neg h]
      rw [he]
      have hne : squeeze (d :: rest) ≠ [] := by
        intro hx
        have := squeeze_head? (d :: rest)
        rw [hx] at this
        cases this
      cases hs : squeeze (d :: rest) with
      | nil => exact absurd hs hne
      | cons e t =>
        rw [List.getLast?_cons_cons, ← hs, squeeze_getLast? (d :: rest),
          List.getLast?_cons_cons]

theorem mem_squeeze {u : Str} {c : Nat} (h : c ∈ squeeze u) : c ∈ u := by
  match u with
  | [] => exact h
  | [d] => exact h
  | d :: e :: rest =>
    by_cases hde : d = 32 ∧ e = 32
    · have he : squeeze (d :: e :: rest) = squeeze (e :: rest) := by
        simp only [squeeze]
        rw [if_pos hde]
      rw [he] at h
      exact List.mem_cons_of_mem d (mem_squeeze h)
    · have he : squeeze (d :: e :: rest) = d :: squeeze (e :: rest) := by
        simp only [squeeze]
        rw [if_neg hde]
      rw [he] at h
      rcases List.mem_cons.mp h with h1 | h2
      · exact h1 ▸ List.mem_cons_self d _
      · exact List.mem_cons_of_mem d (mem_squeeze h2)

theorem squeeze_chain (u : Str) : List.Chain' NoSp (squeeze u) := by
  match u with
  | [] => exact List.chain'_nil
  | [c] => exact List.chain'_singleton c
  | c :: d :: rest =>
    by_cases h : c = 32 ∧ d = 32
    · have he : squeeze (c :: d :: rest) = squeeze (d :: rest) := by
        simp only [squeeze]
        rw [if_pos h]
      rw [he]
      exact squeeze_chain (d :: rest)
    · have he : squeeze (c :: d :: rest) = c :: squeeze (d :: rest) := by
        simp only [squeeze]
        rw [if_neg h]
      rw [he]
      refine List.chain'_cons'.mpr ⟨?_, squeeze_chain (d :: rest)⟩
      intro y hy
      rw [squeeze_head? (d :: rest)] at hy
      cases hy
      intro hcon
      exact h ⟨hcon.1, hcon.2⟩

theorem squeeze_of_chain {u : Str} (h : List.Chain' NoSp u) : squeeze u = u := by
  match u with
  | [] => rfl
  | [c] => rfl
  | c :: d :: rest =>
    have hrel : NoSp c d := (List.chain'_cons.mp h).1
    have htail : List.Chain' NoSp (d :: rest) := (List.chain'_cons.mp h).2
    simp only [squeeze]
    rw [if_neg hrel, squeeze_of_chain htail]

theorem head?_dropWhile {p : Nat → Bool} {u : Str} {c : Nat}
    (h : (u.dropWhile p).head? = some c) : p c = false := by
  induction u with
  | nil => cases h
  | cons x xs ih =>
    rw [List.dropWhile_cons] at h
    by_cases hx : p x
    · rw [if_pos hx] at h
      exact ih h
    · rw [if_neg hx] at h
      cases h
      exact Bool.not_eq_true _ ▸ hx

theorem getLast?_dropWhile {p : Nat → Bool} {u : Str}
    (h : u.dropWhile p ≠ []) : (u.dropWhile p).getLast? = u.getLast? := by
  induction u with
  | nil => rfl
  | cons x xs ih =>
    rw [List.dropWhile_cons]
    by_cases hx : p x
    · rw [List.dropWhile_cons, if_pos hx] at h
      rw [if_pos hx, ih h]
      cases hxs : xs with
      | nil =>
        rw [hxs] at h
        simp at h
      | cons y ys => rw [List.getLast?_cons_cons]
    · rw [if_neg hx]
  
theorem mem_jsTrim {s : Str} {c : Nat} (h : c ∈ jsTrim s) : c ∈ s := by
  unfold jsTrim at h
  rw [List.mem_reverse] at h
  have h1 := (List.dropWhile_sublist (fun c => isWs c)).mem h
  rw [List.mem_reverse] at h1
  exact (List.dropWhile_sublist (fun c => isWs c)).mem h1

theorem jsTrim_head {s : Str} {c : Nat} (h : (jsTrim s).head? = some c) :
    isWs c = false := by
  unfold jsTrim at h
  rw [List.head?_reverse] at h
  have hne : (s.dropWhile fun c => isWs c).reverse.dropWhile (fun c => isWs c) ≠ [] := by
    intro hx
    rw [hx] at h
    cases h
  rw [getLast?_dropWhile hne] at h
  rw [show ((s.dropWhile fun c => isWs c).reverse.getLast? =
      (s.dropWhile fun c => isWs c).head?) from ?_] at h
  · exact head?_dropWhile h
  · conv_rhs => rw [← List.reverse_reverse (s.dropWhile fun c => isWs c)]
    rw [List.head?_reverse]

theorem jsTrim_getLast {s : Str} {c : Nat} (h : (jsTrim s).getLast? = some c) :
    isWs c = false := by
  unfold jsTrim at h
  rw [show (((s.dropWhile fun c => isWs c).reverse.dropWhile fun c => isWs c).reverse.getLast? =
      ((s.dropWhile fun c => isWs c).reverse.dropWhile fun c => isWs c).head?) from ?_] at h
  · exact head?_dropWhile h
  · conv_rhs => rw [← List.reverse_reverse
      ((s.dropWhile fun c => isWs c).reverse.dropWhile fun c => isWs c)]
    rw [List.head?_reverse]

theorem jsTrim_of_ends {u : Str} {c d : Nat} (hh : u.head? = some c)
    (hc : isWs c = false) (hl : u.getLast? = some d) (hd : isWs d = false) :
    jsTrim u = u := by
  have h1 : u.dropWhile (fun x => isWs x) = u := by
    cases u with
    | nil => rfl
    | cons x xs =>
      cases hh
      rw [List.dropWhile_cons, if_neg (by rw [hc]; exact Bool.false_ne_true)]
  have h2 : u.reverse.dropWhile (fun x => isWs x) = u.reverse := by
    cases hrev : u.reverse with
    | nil => rfl
    | cons y ys =>
      have : u.reverse.head? = some d := by
        rw [List.head?_reverse]
        exact hl
      rw [hrev] at this
      cases this
      rw [List.dropWhile_cons, if_neg (by rw [hd]; exact Bool.false_ne_true)]
  unfold jsTrim
  rw [h1, h2, List.reverse_reverse]

theorem jsSplit_head_ne_nil {s : Str} {w : Str} {ws : List Str}
    (hne : s ≠ []) (hh : s.head? ≠ some 32) (hsp : jsSplit 32 s = w :: ws) :
    w ≠ [] := by
  cases s with
  | nil => exact absurd rfl hne
  | cons c rest =>
    have hc : ¬ c = 32 := fun he => hh (by rw [he]; rfl)
    cases hr : jsSplit 32 rest with
    | nil => exact absurd hr (jsSplit_ne_nil 32 rest)
    | cons w2 ws2 =>
      have hred : jsSplit 32 (c :: rest) =
          if c = 32 then [] :: w2 :: ws2 else (c :: w2) :: ws2 := by
        unfold jsSplit
        rw [hr]
      rw [hred, if_neg hc] at hsp
      injection hsp with e1 e2
      rw [← e1]
      exact List.cons_ne_nil c w2

theorem jsSplit_tail_ne_nil {s : Str} (hch : List.Chain' NoSp s)
    (hl : s.getLast? ≠ some 32) : ∀ p ∈ (jsSplit 32 s).tail, p ≠ [] := by
  induction s with
  | nil =>
    intro p hp
    simp [jsSplit] at hp
  | cons c rest ih =>
    cases hr : jsSplit 32 rest with
    | nil => exact absurd hr (jsSplit_ne_nil 32 rest)
    | cons w ws =>
      have hred : jsSplit 32 (c :: rest) =
          if c = 32 then [] :: w :: ws else (c :: w) :: ws := by
        unfold jsSplit
        rw [hr]
      by_cases hc : c = 32
      · rw [hred, if_pos hc]
        cases rest with
        | nil =>
          exact absurd (by rw [hc]; rfl) hl
        | cons d rest2 =>
          have hd : d ≠ 32 := by
            intro he
            exact (List.chain'_cons.mp hch).1 ⟨hc, he⟩
          have hlr : (d :: rest2).getLast? ≠ some 32 := by
            rw [← @List.getLast?_cons_cons Nat c d rest2]
            exact hl
          intro p hp
          rcases List.mem_cons.mp hp with he | hm
          · subst he
            exact jsSplit_head_ne_nil (List.cons_ne_nil d rest2)
              (by rw [List.head?_cons]; intro hx; exact hd (by injection hx)) hr
          · have := ih (List.chain'_cons.mp hch).2 hlr
            rw [hr] at this
            exact this p hm
      · rw [hred, if_neg hc]
        intro p hp
        cases rest with
        | nil =>
          have : jsSplit 32 ([] : Str) = [[]] := rfl
          rw [this] at hr
          injection hr with e1 e2
          rw [← e2] at hp
          simp at hp
        | cons d rest2 =>
          have hlr : (d :: rest2).getLast? ≠ some 32 := by
            rw [← @List.getLast?_cons_cons Nat c d rest2]
            exact hl
          have := ih (List.chain'_cons.mp hch).2 hlr
          rw [hr] at this
          exact this p hp

theorem joinSep_head? {sep : Nat} {w : Str} {rest : List Str} (hw : w ≠ []) :
    (joinSep sep (w :: rest)).head? = w.head? := by
  cases w with
  | nil => exact absurd rfl hw
  | cons c w2 =>
    cases rest with
    | nil => rfl
    | cons q rest2 => rfl

theorem joinSep_last_mem {sep : Nat} (ps : List Str) (hne : ps ≠ [])
    (hall : ∀ p ∈ ps, p ≠ []) :
    ∃ w ∈ ps, (joinSep sep ps).getLast? = w.getLast? := by
  induction ps with
  | nil => exact absurd rfl hne
  | cons p rest ih =>
    cases rest with
    | nil => exact ⟨p, List.mem_cons_self p [], rfl⟩
    | cons p2 rest2 =>
      obtain ⟨w, hwm, hwe⟩ := ih (List.cons_ne_nil p2 rest2)
        fun q hq => hall q (List.mem_cons_of_mem p hq)
      refine ⟨w, List.mem_cons_of_mem p hwm, ?_⟩
      have hwne : w ≠ [] := hall w (List.mem_cons_of_mem p hwm)
      have hJne : joinSep sep (p2 :: rest2) ≠ [] := by
        intro hx
        rw [hx] at hwe
        rw [List.getLast?_eq_getLast w hwne] at hwe
        cases hwe
      show (p ++ sep :: joinSep sep (p2 :: rest2)).getLast? = w.getLast?
      rw [List.getLast?_append]
      cases hJ : joinSep sep (p2 :: rest2) with
      | nil => exact absurd hJ hJne
      | cons j js =>
        rw [List.getLast?_cons_cons, ← hJ, hwe]
        rw [List.getLast?_eq_getLast w hwne]
        rfl

theorem chain_of_ne32 {u : Str} (h : ∀ c ∈ u, c ≠ 32) : List.Chain' NoSp u := by
  induction u with
  | nil => exact List.chain'_nil
  | cons c rest ih =>
    refine List.chain'_cons'.mpr ⟨?_, ih fun x hx => h x (List.mem_cons_of_mem c hx)⟩
    intro y hy hcon
    exact h c (List.mem_cons_self c rest) hcon.1

theorem joinSep_chain {ps : List Str}
    (h : ∀ p ∈ ps, p ≠ [] ∧ ∀ c ∈ p, c ≠ 32) :
    List.Chain' NoSp (joinSep 32 ps) := by
  induction ps with
  | nil => exact List.chain'_nil
  | cons p rest ih =>
    cases rest with
    | nil =>
      exact chain_of_ne32 (h p (List.mem_cons_self p [])).2
    | cons p2 rest2 =>
      show List.Chain' NoSp (p ++ 32 :: joinSep 32 (p2 :: rest2))
      rw [List.chain'_append]
      refine ⟨chain_of_ne32 (h p (List.mem_cons_self p _)).2, ?_, ?_⟩
      · rw [List.chain'_cons']
        refine ⟨?_, ih fun q hq => h q (List.mem_cons_of_mem p hq)⟩
        intro y hy hcon
        have hp2 := h p2 (List.mem_cons_of_mem p (List.mem_cons_self p2 rest2))
        rw [joinSep_head? hp2.1] at hy
        cases hp2p : p2 with
        | nil => exact hp2.1 hp2p
        | cons d d2 =>
          rw [hp2p, List.head?_cons] at hy
          have hyd : d = y := Option.mem_some_iff.mp hy
          exact hp2.2 d (hp2p ▸ List.mem_cons_self d d2) (hyd.trans hcon.2)
      · intro x hx y hy hcon
        have hpne := (h p (List.mem_cons_self p _)).1
        rw [List.getLast?_eq_getLast p hpne] at hx
        cases hx
        exact (h p (List.mem_cons_self p _)).2 _ (List.getLast_mem hpne) hcon.1

/-- The character invariant carried by every word the normalizer processes:
not whitespace, within the modelled repertoire, and not `ß`. -/
def QChar (c : Nat) : Prop := isWs c = false ∧ c < 1024 ∧ c ≠ 223

theorem qchar_lower {c : Nat} (h : QChar c) : QChar (jsLower c) := by
  obtain ⟨h1, h2, h3⟩ := h
  obtain ⟨g1, g2⟩ := jsLower_good c h2 h3
  exact ⟨(case_nonWs c h2 h3 h1).1, g1, g2⟩

theorem qchar_upper {c u : Nat} (h : QChar c) (hu : u ∈ jsUpper c) : QChar u := by
  obtain ⟨h1, h2, h3⟩ := h
  obtain ⟨g1, g2⟩ := jsUpper_good c h2 h3 u hu
  exact ⟨(case_nonWs c h2 h3 h1).2 u hu, g1, g2⟩

theorem qchar_45 : QChar 45 := by
  refine ⟨?_, ?_, ?_⟩ <;> decide

theorem qchar_ne32 {c : Nat} (h : QChar c) : c ≠ 32 := by
  intro he
  rw [he] at h
  exact absurd h.1 (by decide)

theorem lowerStr_qchar {w : Str} (hw : ∀ c ∈ w, QChar c) :
    ∀ c ∈ lowerStr w, QChar c := by
  intro c hc
  obtain ⟨x, hx, rfl⟩ := List.mem_map.mp hc
  exact qchar_lower (hw x hx)

theorem capPlain_qchar {w : Str} (hw : ∀ c ∈ w, QChar c) :
    ∀ c ∈ capPlain w, QChar c := by
  cases w with
  | nil => exact hw
  | cons c rest =>
    intro x hx
    rcases List.mem_append.mp hx with h1 | h2
    · exact qchar_upper (hw c (List.mem_cons_self c rest)) h1
    · exact lowerStr_qchar (fun y hy => hw y (List.mem_cons_of_mem c hy)) x h2

theorem capNH_qchar {w : Str} (hw : ∀ c ∈ w, QChar c) :
    ∀ c ∈ capNH w, QChar c := by
  induction w with
  | nil => exact hw
  | cons c rest ih =>
    have hrw : ∀ x ∈ rest, QChar x := fun x hx => hw x (List.mem_cons_of_mem c hx)
    by_cases hc : c = 39
    · by_cases hr : rest.isEmpty
      · have he : capNH (c :: rest) = [c] := by
          conv_lhs => unfold capNH
          rw [if_pos hc, if_pos hr]
        rw [he]
        intro x hx
        rcases List.mem_cons.mp hx with h1 | h2
        · exact h1 ▸ hw c (List.mem_cons_self c rest)
        · simp at h2
      · have he : capNH (c :: rest) = c :: capNH rest := by
          conv_lhs => unfold capNH
          rw [if_pos hc, if_neg hr]
        rw [he]
        intro x hx
        rcases List.mem_cons.mp hx with h1 | h2
        · exact h1 ▸ hw c (List.mem_cons_self c rest)
        · exact ih hrw x h2
    · by_cases hm : 39 ∈ rest
      · have he : capNH (c :: rest) = c :: capNH rest := by
          conv_lhs => unfold capNH
          rw [if_neg hc, if_pos hm]
        rw [he]
        intro x hx
        rcases List.mem_cons.mp hx with h1 | h2
        · exact h1 ▸ hw c (List.mem_cons_self c rest)
        · exact ih hrw x h2
      · have hnm : 39 ∉ c :: rest := by
          intro hx
          rcases List.mem_cons.mp hx with h1 | h2
          · exact hc h1.symm
          · exact hm h2
        rw [capNH_of_not_mem hnm]
        exact capPlain_qchar hw

theorem capitalizeWord_qchar {w : Str} (hw : ∀ c ∈ w, QChar c) :
    ∀ c ∈ capitalizeWord w, QChar c := by
  by_cases hm : 45 ∈ w
  · rw [capitalizeWord_eq w, if_pos hm]
    intro c hc
    rcases mem_joinSep_cases hc with he | ⟨q, hq, hcq⟩
    · exact he ▸ qchar_45
    · obtain ⟨p, hp, rfl⟩ := List.mem_map.mp hq
      exact capNH_qchar (fun x hx => hw x (mem_of_mem_jsSplit hp hx)) c hcq
  · rw [capitalizeWord_eq w, if_neg hm]
    exact capNH_qchar hw

theorem capitalizeWord_ne_nil {w : Str} (hne : w ≠ []) : capitalizeWord w ≠ [] := by
  by_cases hm : 45 ∈ w
  · rw [capitalizeWord_eq w, if_pos hm]
    have hlen : 2 ≤ ((jsSplit 45 w).map capNH).length := by
      rw [List.length_map]
      exact two_le_jsSplit_of_mem hm
    exact List.ne_nil_of_mem (sep_mem_joinSep hlen)
  · rw [capitalizeWord_eq w, if_neg hm]
    exact capNH_ne_nil hne

theorem procWord_eq (i : Nat) (w : Str) :
    procWord i w =
      if i = 0 then capitalizeWord w
      else if lowerStr w ∈ lowerCaseWords then lowerStr w
      else capitalizeWord w := rfl

theorem procWord_qchar {i : Nat} {w : Str} (hw : ∀ c ∈ w, QChar c) :
    ∀ c ∈ procWord i w, QChar c := by
  rw [procWord_eq]
  by_cases hi : i = 0
  · rw [if_pos hi]
    exact capitalizeWord_qchar hw
  · rw [if_neg hi]
    by_cases hmem : lowerStr w ∈ lowerCaseWords
    · rw [if_pos hmem]
      exact lowerStr_qchar hw
    · rw [if_neg hmem]
      exact capitalizeWord_qchar hw

theorem procWord_ne_nil {i : Nat} {w : Str} (hne : w ≠ []) : procWord i w ≠ [] := by
  rw [procWord_eq]
  by_cases hi : i = 0
  · rw [if_pos hi]
    exact capitalizeWord_ne_nil hne
  · rw [if_neg hi]
    by_cases hmem : lowerStr w ∈ lowerCaseWords
    · rw [if_pos hmem]
      intro hx
      exact hne (List.map_eq_nil_iff.mp hx)
    · rw [if_neg hmem]
      exact capitalizeWord_ne_nil hne

theorem procWords_mem {ws : List Str} {i : Nat} {w2 : Str}
    (h : w2 ∈ procWords i ws) : ∃ j w, w ∈ ws ∧ w2 = procWord j w := by
  induction ws generalizing i with
  | nil => cases h
  | cons w rest ih =>
    rcases List.mem_cons.mp h with he | hm
    · exact ⟨i, w, List.mem_cons_self w rest, he⟩
    · obtain ⟨j, w3, hw3, he⟩ := ih hm
      exact ⟨j, w3, List.mem_cons_of_mem w hw3, he⟩

theorem procWords_ne_nil {i : Nat} {ws : List Str} (h : ws ≠ []) :
    procWords i ws ≠ [] := by
  cases ws with
  | nil => exact absurd rfl h
  | cons w rest => exact List.cons_ne_nil _ _

theorem getLast?_map (f : Nat → Nat) (l : Str) :
    (l.map f).getLast? = l.getLast?.map f := by
  rw [← List.head?_reverse, ← List.map_reverse, List.head?_map, List.head?_reverse]

theorem normalizeName_eq (s : Str) :
    normalizeName s = joinSp (procWords 0 (jsSplit 32 (collapseWs (jsTrim s)))) := rfl

theorem normalizeName_idem {s : Str} (h1 : ∀ c ∈ s, c ≤ 255) (h2 : 223 ∉ s) :
    normalizeName (normalizeName s) = normalizeName s := by
  by_cases hT : jsTrim s = []
  · have e1 : normalizeName s = [] := by
      rw [normalizeName_eq, hT]
      rfl
    rw [e1]
    rfl
  · obtain ⟨c0, hc0, hc0w⟩ : ∃ c0, (jsTrim s).head? = some c0 ∧ isWs c0 = false := by
      cases hTc : jsTrim s with
      | nil => exact absurd hTc hT
      | cons x t =>
        exact ⟨x, rfl, jsTrim_head (by rw [hTc]; rfl)⟩
    obtain ⟨c1, hc1, hc1w⟩ : ∃ c1, (jsTrim s).getLast? = some c1 ∧ isWs c1 = false := by
      cases hTc : jsTrim s with
      | nil => exact absurd hTc hT
      | cons x t =>
        refine ⟨(x :: t).getLast (List.cons_ne_nil x t), List.getLast?_eq_getLast _ _, ?_⟩
        exact jsTrim_getLast (by rw [hTc]; exact List.getLast?_eq_getLast _ _)
    have hc032 : c0 ≠ 32 := by
      intro he
      rw [he] at hc0w
      exact absurd hc0w (by decide)
    have hc132 : c1 ≠ 32 := by
      intro he
      rw [he] at hc1w
      exact absurd hc1w (by decide)
    set base := collapseWs (jsTrim s) with hbase
    have hbaseh : base.head? = some c0 := by
      rw [hbase]
      unfold collapseWs
      rw [squeeze_head?, List.head?_map, hc0]
      show some (if isWs c0 then 32 else c0) = some c0
      rw [if_neg (by rw [hc0w]; exact Bool.false_ne_true)]
    have hbasel : base.getLast? = some c1 := by
      rw [hbase]
      unfold collapseWs
      rw [squeeze_getLast?, getLast?_map, hc1]
      show some (if isWs c1 then 32 else c1) = some c1
      rw [if_neg (by rw [hc1w]; exact Bool.false_ne_true)]
    have hbasene : base ≠ [] := by
      intro hx
      rw [hx] at hbaseh
      cases hbaseh
    have hchain : List.Chain' NoSp base := by
      rw [hbase]
      exact squeeze_chain _
    set words := jsSplit 32 base with hwords
    have hwordsne : ∀ p ∈ words, p ≠ [] := by
      cases hwc : words with
      | nil => exact absurd (hwords ▸ hwc) (jsSplit_ne_nil 32 base)
      | cons w0 wr =>
        intro p hp
        rcases List.mem_cons.mp hp with he | hm
        · subst he
          exact jsSplit_head_ne_nil hbasene
            (by rw [hbaseh]; intro hx; exact hc032 (by injection hx)) (hwords ▸ hwc)
        · have := jsSplit_tail_ne_nil hchain
            (by rw [hbasel]; intro hx; exact hc132 (by injection hx))
          rw [← hwords, hwc] at this
          exact this p hm
    have hwordsQ : ∀ p ∈ words, ∀ c ∈ p, QChar c := by
      intro p hp c hc
      have hc32 : c ≠ 32 := fun he => (jsSplit_join 32 base).2 p (hwords ▸ hp) (he ▸ hc)
      have hcb : c ∈ base := mem_of_mem_jsSplit (hwords ▸ hp) hc
      have hcM : c ∈ (jsTrim s).map (fun x => if isWs x then 32 else x) := mem_squeeze hcb
      obtain ⟨x, hx, hxe⟩ := List.mem_map.mp hcM
      by_cases hxw : isWs x
      · rw [if_pos hxw] at hxe
        exact absurd hxe.symm hc32
      · rw [if_neg hxw] at hxe
        subst hxe
        have hxs : x ∈ s := mem_jsTrim hx
        refine ⟨by rw [Bool.eq_false_iff]; exact hxw, ?_, ?_⟩
        · exact lt_of_le_of_lt (h1 x hxs) (by norm_num)
        · intro he
          exact h2 (he ▸ hxs)
    have hwordsGood : ∀ p ∈ words, GoodW p :=
      fun p hp c hc => ⟨(hwordsQ p hp c hc).2.1, (hwordsQ p hp c hc).2.2⟩
    set nws := procWords 0 words with hnws
    have hnwsP : ∀ w2 ∈ nws, w2 ≠ [] ∧ ∀ c ∈ w2, QChar c := by
      intro w2 hw2
      obtain ⟨j, w, hwmem, rfl⟩ := procWords_mem (hnws ▸ hw2)
      exact ⟨procWord_ne_nil (hwordsne w hwmem),
        procWord_qchar (hwordsQ w hwmem)⟩
    have hnwsne : nws ≠ [] := by
      rw [hnws, hwords]
      exact procWords_ne_nil (jsSplit_ne_nil 32 base)
    have hNs : normalizeName s = joinSp nws := by
      rw [normalizeName_eq, hnws, hwords, hbase]
    obtain ⟨d0, hd0, hd0q⟩ : ∃ d0, (joinSp nws).head? = some d0 ∧ QChar d0 := by
      cases hnc : nws with
      | nil => exact absurd hnc hnwsne
      | cons w0 wr =>
        have hw0 := hnwsP w0 (hnc ▸ List.mem_cons_self w0 wr)
        obtain ⟨d, hd⟩ : ∃ d, w0.head? = some d := by
          cases hw0c : w0 with
          | nil => exact absurd hw0c hw0.1
          | cons d t => exact ⟨d, rfl⟩
        refine ⟨d, ?_, ?_⟩
        · show (joinSep 32 (w0 :: wr)).head? = some d
          rw [joinSep_head? hw0.1]
          exact hd
        · exact hw0.2 d (List.mem_of_mem_head? hd)
    obtain ⟨d1, hd1, hd1q⟩ : ∃ d1, (joinSp nws).getLast? = some d1 ∧ QChar d1 := by
      obtain ⟨w, hwmem, hwe⟩ := @joinSep_last_mem 32 nws hnwsne
        fun p hp => (hnwsP p hp).1
      have hwne := (hnwsP w hwmem).1
      refine ⟨w.getLast hwne, ?_, ?_⟩
      · show (joinSep 32 nws).getLast? = _
        rw [hwe, List.getLast?_eq_getLast w hwne]
      · exact (hnwsP w hwmem).2 _ (List.getLast_mem hwne)
    have htrimJ : jsTrim (joinSp nws) = joinSp nws :=
      jsTrim_of_ends hd0 hd0q.1 hd1 hd1q.1
    have hmapJ : (joinSp nws).map (fun x => if isWs x then 32 else x) = joinSp nws := by
      have hpt : ∀ c ∈ joinSp nws, (if isWs c then 32 else c) = id c := by
        intro c hc
        rcases mem_joinSep_cases hc with he | ⟨p, hp, hcp⟩
        · rw [he]
          rfl
        · show (if isWs c then 32 else c) = c
          rw [if_neg (by rw [((hnwsP p hp).2 c hcp).1]; exact Bool.false_ne_true)]
      rw [List.map_congr_left hpt, List.map_id]
    have hchainJ : List.Chain' NoSp (joinSp nws) :=
      joinSep_chain fun p hp =>
        ⟨(hnwsP p hp).1, fun c hc => qchar_ne32 ((hnwsP p hp).2 c hc)⟩
    have hcollJ : collapseWs (joinSp nws) = joinSp nws := by
      unfold collapseWs
      rw [hmapJ, squeeze_of_chain hchainJ]
    have hsplitJ : jsSplit 32 (joinSp nws) = nws :=
      jsSplit_joinSep hnwsne
        fun p hp hmem => qchar_ne32 ((hnwsP p hp).2 32 hmem) rfl
    rw [hNs, normalizeName_eq, htrimJ, hcollJ, hsplitJ]
    rw [hnws, procWords_idem hwordsGood 0]

/-- C5 counterexample: normalization is not idempotent on every string.
JavaScript uppercases `ß` to the two-character `"SS"`, so
`normalizeName "ßa zz"` is `"SSa Zz"`, which renormalizes to `"Ssa Zz"`. -/
theorem normalize_not_idempotent :
    normalizeName (normalizeName (ofStr "ßa zz")) ≠ normalizeName (ofStr "ßa zz") := by
  decide

/-- C5 amended: normalization is idempotent for every string over the Latin-1
repertoire (code units ≤ 255) that does not contain `ß` (223) — the
one-to-many case mapping of `ß` is the only obstruction — and the two
concrete examples of the claim hold: `"maria DA silva"` normalizes to
`"Maria da Silva"` and `"de souza pereira"` to `"De Souza Pereira"` (the
first word is capitalized even though it is a connector). -/
theorem fullname_normalize_idem (s : Str) (h1 : ∀ c ∈ s, c ≤ 255)
    (h2 : 223 ∉ s) :
    normalizeName (normalizeName s) = normalizeName s ∧
    FullName.new (ofStr "maria DA silva") = .ok (ofStr "Maria da Silva") ∧
    FullName.new (ofStr "de souza pereira") = .ok (ofStr "De Souza Pereira") :=
  ⟨normalizeName_idem h1 h2, by rfl, by rfl⟩

/-- Witness for `fullname_normalize_idem` at the concrete input
`"maria DA silva"`. -/
theorem fullname_normalize_idem_witness :
    ((∀ c ∈ ofStr "maria DA silva", c ≤ 255) ∧ 223 ∉ ofStr "maria DA silva") ∧
    normalizeName (normalizeName (ofStr "maria DA silva")) =
      normalizeName (ofStr "maria DA silva") :=
  ⟨⟨by decide, by decide⟩,
    (fullname_normalize_idem (ofStr "maria DA silva") (by decide) (by decide)).1⟩
